import Mathlib

set_option maxRecDepth 4000

/-!
Shallow embedding of the Numscript intent-to-script compiler
(`src/lib/compiler.ts`, two variants) together with the intent data
model from the Zod schema (`src/lib/schema.ts`).

Strings are modelled as lists of characters (`Str`), so every
definition is executable and every concrete script can be evaluated by
`decide` or `rfl`.  JavaScript semantics that matter here:

* optional string fields are `Option Str`; the truthiness test
  `posting.simple_destination` is false for `none` and for the empty
  string, while the truthiness test on an array field
  (`posting.split_rules`) is false only for `none` — an empty array is
  truthy;
* `Array.prototype.sort` is required by ECMA-262 to be stable; a
  stable sort for a total-preorder comparator is extensionally unique,
  and we model it with a structurally recursive stable insertion sort
  (`stableSort`), so that it also reduces in the kernel;
* a thrown `Error` is modelled with `Except Str`;
* `console.warn` inside `formatSplitDestination` is modelled by the
  function `splitWarnings`, which returns the list of warning strings
  the call would print for the given rules.
-/

/-- Strings, modelled as lists of characters. -/
abbrev Str := List Char

/-- Conversion from Lean string literals to the `Str` model. -/
def str (s : String) : Str := s.data

/-- JS truthiness of an optional string field: `undefined` and `""` are falsy. -/
def truthyStr : Option Str → Bool
  | Option.none => false
  | Option.some s => decide (s ≠ [])

/-- JS `Array.prototype.join(sep)`. -/
def joinWith (sep : Str) : List Str → Str
  | [] => []
  | [s] => s
  | s :: t :: rest => s ++ sep ++ joinWith sep (t :: rest)

/-- Stable insertion of an element into a list: the element goes before
the first entry `b` with `le a b`; among `le`-ties the inserted element
keeps its (later) relative position only with respect to elements it is
strictly after, i.e. the insertion is stable. -/
def orderedInsert (le : α → α → Bool) (a : α) : List α → List α
  | [] => [a]
  | b :: l => if le a b then a :: b :: l else b :: orderedInsert le a l

/-- Stable sort (insertion sort).  For a comparator that is a total
preorder this computes the same list as any stable sort, in particular
as the ECMA-262 `Array.prototype.sort`. -/
def stableSort (le : α → α → Bool) : List α → List α
  | [] => []
  | a :: l => orderedInsert le a (stableSort le l)

/-- The `amount_mode` enum of a split rule (`z.enum(["fraction", "max", "remaining"])`). -/
inductive AmountMode where
  | fraction
  | max
  | remaining
deriving DecidableEq

/-- The `source_overdraft` enum (`z.enum(["none", "unbounded", "limited"])`). -/
inductive Overdraft where
  | none
  | unbounded
  | limited
deriving DecidableEq

/-- The `destination_type` enum (`z.enum(["simple", "split"])`). -/
inductive DestinationType where
  | simple
  | split
deriving DecidableEq

/-- `SplitRuleSchema` from `src/lib/schema.ts`. -/
structure SplitRule where
  target : Str
  amount_mode : AmountMode
  value : Str
deriving DecidableEq

/-- `PostingSchema` from `src/lib/schema.ts`. -/
structure Posting where
  source : Str
  source_overdraft : Overdraft
  overdraft_limit : Option Str
  destination_type : DestinationType
  simple_destination : Option Str
  split_rules : Option (List SplitRule)
  asset : Str
  amount : Str
deriving DecidableEq

/-- `MetadataSchema` from `src/lib/schema.ts`. -/
structure MetadataEntry where
  key : Str
  value : Str
deriving DecidableEq

/-- `NumscriptIntentSchema` from `src/lib/schema.ts`. -/
structure NumscriptIntent where
  summary : Str
  postings : List Posting
  metadata : Option (List MetadataEntry)
deriving DecidableEq

namespace Compiler

/-- `formatAccount` from `src/lib/compiler.ts` (first variant; the second
variant is textually identical). -/
def formatAccount (account : Str) : Str :=
  if account = str "world" then str "@world"
  else if (str "@").isPrefixOf account then account
  else str "@" ++ account

/-- `formatSource` from `src/lib/compiler.ts` (identical in both variants). -/
def formatSource (posting : Posting) : Str :=
  let account := formatAccount posting.source
  if posting.source = str "world" ∨ posting.source = str "@world" then
    account
  else if posting.source_overdraft = Overdraft.unbounded then
    account ++ str " allowing unbounded overdraft"
  else if posting.source_overdraft = Overdraft.limited ∧ truthyStr posting.overdraft_limit then
    account ++ str " allowing overdraft up to [" ++ posting.asset ++ str " "
      ++ posting.overdraft_limit.getD [] ++ str "]"
  else account

/-- `formatSplitRule` from `src/lib/compiler.ts` (identical in both variants). -/
def formatSplitRule (rule : SplitRule) (asset : Str) : Str :=
  let target := formatAccount rule.target
  match rule.amount_mode with
  | AmountMode.fraction =>
    let value := if '%' ∈ rule.value then rule.value else rule.value ++ str "%"
    str "    " ++ value ++ str " to " ++ target
  | AmountMode.max =>
    str "    max [" ++ asset ++ str " " ++ rule.value ++ str "] to " ++ target
  | AmountMode.remaining =>
    str "    remaining to " ++ target

/-- The `rules.some(r => r.amount_mode === "max")` check in `formatSplitDestination`. -/
def hasMax (rules : List SplitRule) : Bool :=
  rules.any fun r => decide (r.amount_mode = AmountMode.max)

/-- The `rules.some(r => r.amount_mode === "fraction")` check in `formatSplitDestination`. -/
def hasFraction (rules : List SplitRule) : Bool :=
  rules.any fun r => decide (r.amount_mode = AmountMode.fraction)

/-- The `console.warn` emissions of `formatSplitDestination` (first variant),
as the list of warning strings printed for the given rules. -/
def splitWarnings (rules : List SplitRule) : List Str :=
  if hasMax rules && hasFraction rules then
    [str "Warning: Cannot mix max and fraction in same split. Using max-based inorder."]
  else []

/-- Sort key of the comparator in `formatSplitDestination` (first variant):
`{ fraction: 0, max: 0, remaining: 1 }`. -/
def splitOrder : AmountMode → Nat
  | AmountMode.fraction => 0
  | AmountMode.max => 0
  | AmountMode.remaining => 1

/-- The comparator `(a, b) => order[a.amount_mode] - order[b.amount_mode]`
of the first variant, as the boolean relation `comparator ≤ 0`. -/
def splitLe (a b : SplitRule) : Bool :=
  decide (splitOrder a.amount_mode ≤ splitOrder b.amount_mode)

/-- `[...rules].sort(comparator)` of the first variant (JS sort is stable). -/
def sortSplitRules (rules : List SplitRule) : List SplitRule :=
  stableSort splitLe rules

/-- `sorted.map(rule => formatSplitRule(rule, asset))` of the first variant. -/
def splitLines (rules : List SplitRule) (asset : Str) : List Str :=
  (sortSplitRules rules).map fun r => formatSplitRule r asset

/-- `formatSplitDestination` (first variant): the returned block string. -/
def formatSplitDestination (rules : List SplitRule) (asset : Str) : Str :=
  str "\x7b\n" ++ joinWith (str "\n") (splitLines rules asset) ++ str "\n  \x7d"

/-- The destination branch of `compilePosting` (identical in both variants):
`Except.error` models the thrown `Error`. -/
def destinationResult (posting : Posting) : Except Str Str :=
  if posting.destination_type = DestinationType.simple ∧ truthyStr posting.simple_destination then
    Except.ok (formatAccount (posting.simple_destination.getD []))
  else if posting.destination_type = DestinationType.split ∧ posting.split_rules.isSome then
    Except.ok (formatSplitDestination (posting.split_rules.getD []) posting.asset)
  else
    Except.error (str "Invalid destination configuration")

/-- `compilePosting` from `src/lib/compiler.ts` (first variant). -/
def compilePosting (posting : Posting) : Except Str Str :=
  let asset := posting.asset
  let amountValue := if posting.amount = str "*" then str "*" else posting.amount
  let amount := str "[" ++ asset ++ str " " ++ amountValue ++ str "]"
  let source := formatSource posting
  match destinationResult posting with
  | Except.error e => Except.error e
  | Except.ok destination =>
    Except.ok (joinWith (str "\n")
      [str "send " ++ amount ++ str " (",
       str "  source = " ++ source,
       str "  destination = " ++ destination,
       str ")"])

/-- `intent.postings.map(compilePosting)`, with the thrown error of the
first malformed posting propagated. -/
def compilePostings : List Posting → Except Str (List Str)
  | [] => Except.ok []
  | p :: ps =>
    match compilePosting p with
    | Except.error e => Except.error e
    | Except.ok s =>
      match compilePostings ps with
      | Except.error e => Except.error e
      | Except.ok ss => Except.ok (s :: ss)

/-- The metadata statement template in `compileMetadata`. -/
def metaLine (m : MetadataEntry) : Str :=
  str "set_tx_meta(\x22" ++ m.key ++ str "\x22, \x22" ++ m.value ++ str "\x22)"

/-- `compileMetadata` from `src/lib/compiler.ts` (first variant). -/
def compileMetadata (metadata : List MetadataEntry) : List Str :=
  metadata.map metaLine

/-- `compileToNumscript` from `src/lib/compiler.ts` (first variant). -/
def compileToNumscript (intent : NumscriptIntent) : Except Str Str :=
  let header := str "// " ++ intent.summary
  match compilePostings intent.postings with
  | Except.error e => Except.error e
  | Except.ok postings =>
    let parts := header :: [] :: postings
    let parts :=
      match intent.metadata with
      | Option.some md => if 0 < md.length then parts ++ [] :: compileMetadata md else parts
      | Option.none => parts
    Except.ok (joinWith (str "\n\n") parts)

end Compiler

namespace Compiler2

/-- Sort key of the comparator in `formatSplitDestination` (second variant):
`{ fraction: 0, max: 1, remaining: 2 }`. -/
def splitOrder : AmountMode → Nat
  | AmountMode.fraction => 0
  | AmountMode.max => 1
  | AmountMode.remaining => 2

/-- The comparator of the second variant as a boolean relation. -/
def splitLe (a b : SplitRule) : Bool :=
  decide (splitOrder a.amount_mode ≤ splitOrder b.amount_mode)

/-- `[...rules].sort(comparator)` of the second variant. -/
def sortSplitRules (rules : List SplitRule) : List SplitRule :=
  stableSort splitLe rules

/-- `sorted.map(rule => formatSplitRule(rule, asset))` of the second
variant; its `formatSplitRule` is textually identical to the first
variant's, so it is reused. -/
def splitLines (rules : List SplitRule) (asset : Str) : List Str :=
  (sortSplitRules rules).map fun r => Compiler.formatSplitRule r asset

/-- `formatSplitDestination` (second variant). -/
def formatSplitDestination (rules : List SplitRule) (asset : Str) : Str :=
  str "\x7b\n" ++ joinWith (str "\n") (splitLines rules asset) ++ str "\n  \x7d"

end Compiler2

/-!
Observation functions over rendered scripts (spec side), and the
expected line layout of a compiled script.
-/

/-- The lines of a rendered script: split on the newline character.
The result is always non-empty. -/
def linesOf : Str → List Str
  | [] => [[]]
  | c :: rest =>
    let ls := linesOf rest
    if c = '\n' then [] :: ls
    else (c :: ls.headD []) :: ls.tail

/-- Join line blocks with exactly one blank line between consecutive blocks. -/
def blockJoin : List (List Str) → List Str
  | [] => []
  | [b] => b
  | b :: c :: rest => b ++ [] :: blockJoin (c :: rest)

/-- A script line that is a `send` statement header. -/
def isSendLine (l : Str) : Bool :=
  (str "send ").isPrefixOf l

/-- A script line that is a `set_tx_meta` statement. -/
def isMetaLine (l : Str) : Bool :=
  (str "set_tx_meta(").isPrefixOf l

/-- The `send` header line of one posting, exactly as `compilePosting`
emits it. -/
def sendLine (p : Posting) : Str :=
  str "send " ++ (str "[" ++ p.asset ++ str " "
    ++ (if p.amount = str "*" then str "*" else p.amount) ++ str "]") ++ str " ("

/-- The expected destination lines of one posting whose destination
resolves without error (an empty rendered split block contributes a
single blank line between its braces). -/
def destLines (p : Posting) : List Str :=
  if p.destination_type = DestinationType.simple ∧ truthyStr p.simple_destination then
    [str "  destination = " ++ Compiler.formatAccount (p.simple_destination.getD [])]
  else
    str "  destination = \x7b" ::
      (match Compiler.splitLines (p.split_rules.getD []) p.asset with
       | [] => [[]]
       | l :: ls => l :: ls)
      ++ [str "  \x7d"]

/-- The expected lines of one successfully compiled posting. -/
def postingLines (p : Posting) : List Str :=
  sendLine p :: (str "  source = " ++ Compiler.formatSource p) :: destLines p ++ [str ")"]

/-- The metadata list of an intent (empty when the field is absent). -/
def metaListOf (intent : NumscriptIntent) : List MetadataEntry :=
  intent.metadata.getD []

/-- Extract the success value of a compilation, with `[]` for errors. -/
def okOr : Except Str Str → Str
  | Except.ok s => s
  | Except.error _ => []

/-- Whether a compilation succeeded. -/
def isOkB : Except Str Str → Bool
  | Except.ok _ => true
  | Except.error _ => false

/-!
Newline-freedom of the string fields of an intent.  The layout claims
need the individual fields not to smuggle line breaks into the output.
-/

/-- A string without newline characters. -/
def cleanStr (s : Str) : Bool := decide ('\n' ∉ s)

/-- Cleanliness of an optional string field. -/
def cleanOpt : Option Str → Bool
  | Option.none => true
  | Option.some s => cleanStr s

/-- Cleanliness of a split rule. -/
def cleanRule (r : SplitRule) : Bool := cleanStr r.target && cleanStr r.value

/-- Cleanliness of the optional split-rule list. -/
def cleanRules : Option (List SplitRule) → Bool
  | Option.none => true
  | Option.some rs => rs.all cleanRule

/-- Cleanliness of a posting's string fields. -/
def cleanPosting (p : Posting) : Bool :=
  cleanStr p.source && cleanStr p.asset && cleanStr p.amount
    && cleanOpt p.simple_destination && cleanOpt p.overdraft_limit
    && cleanRules p.split_rules

/-- Cleanliness of a metadata entry. -/
def cleanMeta (m : MetadataEntry) : Bool := cleanStr m.key && cleanStr m.value

/-- Cleanliness of a whole intent. -/
def cleanIntent (intent : NumscriptIntent) : Bool :=
  cleanStr intent.summary && intent.postings.all cleanPosting
    && (match intent.metadata with
        | Option.none => true
        | Option.some md => md.all cleanMeta)

/-!
Spec-side per-rule line forms, and concrete inputs used in the
counterexamples and witnesses below.
-/

/-- The percentage-form line of a fraction rule, as §4.3 of the spec
describes it. -/
def percentLine (r : SplitRule) : Str :=
  str "    " ++ (if '%' ∈ r.value then r.value else r.value ++ str "%")
    ++ str " to " ++ Compiler.formatAccount r.target

/-- The capped-allocation-form line of a max rule, as §4.3 of the spec
describes it. -/
def maxLine (r : SplitRule) (asset : Str) : Str :=
  str "    max [" ++ asset ++ str " " ++ r.value ++ str "] to "
    ++ Compiler.formatAccount r.target

/-- A well-formed simple posting. -/
def pSimple : Posting :=
  { source := str "a", source_overdraft := Overdraft.none, overdraft_limit := Option.none,
    destination_type := DestinationType.simple, simple_destination := Option.some (str "b"),
    split_rules := Option.none, asset := str "USD/2", amount := str "5" }

/-- A split posting carrying a present but empty `split_rules` list. -/
def pEmptySplit : Posting :=
  { pSimple with
    destination_type := DestinationType.split,
    simple_destination := Option.none, split_rules := Option.some [] }

/-- A split posting with the `split_rules` field absent. -/
def pSplitNone : Posting :=
  { pSimple with
    destination_type := DestinationType.split,
    simple_destination := Option.none, split_rules := Option.none }

/-- A simple posting whose `simple_destination` is the empty string. -/
def pEmptyDest : Posting :=
  { pSimple with simple_destination := Option.some [] }

/-- A posting drawing from the `world` sentinel while requesting an overdraft. -/
def pWorld : Posting :=
  { pSimple with source := str "world", source_overdraft := Overdraft.unbounded }

/-- A max rule targeting account `a`. -/
def rMax : SplitRule :=
  { target := str "a", amount_mode := AmountMode.max, value := str "1000" }

/-- A fraction rule targeting account `b`. -/
def rFrac : SplitRule :=
  { target := str "b", amount_mode := AmountMode.fraction, value := str "10%" }

/-- A remaining rule targeting account `c`. -/
def rRem : SplitRule :=
  { target := str "c", amount_mode := AmountMode.remaining, value := [] }

/-- A second remaining rule, targeting account `d`. -/
def rRem2 : SplitRule :=
  { target := str "d", amount_mode := AmountMode.remaining, value := [] }

/-- A split block mixing a max rule and a fraction rule. -/
def mixedRules : List SplitRule := [rMax, rFrac]

/-- A fraction rule whose value lacks the percent sigil. -/
def rFrac80 : SplitRule :=
  { target := str "d", amount_mode := AmountMode.fraction, value := str "80" }

/-- A remaining rule targeting account `e`. -/
def rRemE : SplitRule :=
  { target := str "e", amount_mode := AmountMode.remaining, value := [] }

/-- A well-formed split posting. -/
def pSplit : Posting :=
  { source := str "c", source_overdraft := Overdraft.none, overdraft_limit := Option.none,
    destination_type := DestinationType.split, simple_destination := Option.none,
    split_rules := Option.some [rFrac80, rRemE], asset := str "EUR/2", amount := str "100" }

/-- Intent whose only posting has an empty `split_rules` list. -/
def iEmptySplit : NumscriptIntent :=
  { summary := str "s", postings := [pEmptySplit], metadata := Option.none }

/-- Intent whose second posting has no `split_rules`. -/
def iSplitNone : NumscriptIntent :=
  { summary := str "s", postings := [pSimple, pSplitNone], metadata := Option.none }

/-- Intent whose only posting has an empty-string `simple_destination`. -/
def iEmptyDest : NumscriptIntent :=
  { summary := str "s", postings := [pEmptyDest], metadata := Option.none }

/-- Intent whose first posting lacks a `simple_destination`. -/
def iBadSimple : NumscriptIntent :=
  { summary := str "s",
    postings := [{ pSimple with simple_destination := Option.none }],
    metadata := Option.none }

/-- A full well-formed intent: two postings and one metadata entry. -/
def iFull : NumscriptIntent :=
  { summary := str "Refund", postings := [pSimple, pSplit],
    metadata := Option.some [{ key := str "type", value := str "refund" }] }

/-!
Properties of the stable sort.
-/

theorem mem_orderedInsert {le : α → α → Bool} {a x : α} :
    ∀ {l : List α}, x ∈ orderedInsert le a l ↔ x = a ∨ x ∈ l
  | [] => by simp [orderedInsert]
  | b :: l => by
    by_cases h : le a b = true
    · simp [orderedInsert, h]
    · simp only [orderedInsert, if_neg h, List.mem_cons, mem_orderedInsert (l := l)]
      tauto

theorem mem_stableSort {le : α → α → Bool} {x : α} :
    ∀ {l : List α}, x ∈ stableSort le l ↔ x ∈ l
  | [] => Iff.rfl
  | a :: l => by
    simp [stableSort, mem_orderedInsert, mem_stableSort (l := l)]

theorem pairwise_orderedInsert {le : α → α → Bool}
    (trans : ∀ a b c, le a b = true → le b c = true → le a c = true)
    (total : ∀ a b, le a b = true ∨ le b a = true) (a : α) :
    ∀ {l : List α}, l.Pairwise (fun x y => le x y = true) →
      (orderedInsert le a l).Pairwise (fun x y => le x y = true)
  | [], _ => by simp [orderedInsert]
  | b :: l, hp => by
    rcases List.pairwise_cons.mp hp with ⟨hb, hl⟩
    by_cases h : le a b = true
    · simp only [orderedInsert, if_pos h]
      refine List.pairwise_cons.mpr ⟨?_, hp⟩
      intro x hx
      rcases List.mem_cons.mp hx with rfl | hx
      · exact h
      · exact trans a b x h (hb x hx)
    · simp only [orderedInsert, if_neg h]
      refine List.pairwise_cons.mpr ⟨?_, pairwise_orderedInsert trans total a hl⟩
      intro x hx
      rcases mem_orderedInsert.mp hx with rfl | hx
      · rcases total x b with h' | h'
        · exact absurd h' h
        · exact h'
      · exact hb x hx

theorem pairwise_stableSort {le : α → α → Bool}
    (trans : ∀ a b c, le a b = true → le b c = true → le a c = true)
    (total : ∀ a b, le a b = true ∨ le b a = true) :
    ∀ (l : List α), (stableSort le l).Pairwise (fun x y => le x y = true)
  | [] => List.Pairwise.nil
  | a :: l => pairwise_orderedInsert trans total a (pairwise_stableSort trans total l)

theorem filter_orderedInsert {le : α → α → Bool} {p : α → Bool} {a : α}
    (hp : ∀ x y, p x = true → p y = true → le x y = true) :
    ∀ (l : List α), (orderedInsert le a l).filter p
      = if p a then a :: l.filter p else l.filter p
  | [] => by
    simp only [orderedInsert]
    rw [List.filter_cons]
  | b :: l => by
    by_cases h : le a b = true
    · simp only [orderedInsert, if_pos h]
      rw [List.filter_cons]
    · simp only [orderedInsert, if_neg h]
      rw [List.filter_cons]
      by_cases hb : p b = true
      · have ha : ¬ p a = true := fun ha => h (hp a b ha hb)
        rw [filter_orderedInsert hp l]
        simp [hb, ha, List.filter_cons]
      · rw [filter_orderedInsert hp l]
        simp [hb, List.filter_cons]

theorem filter_stableSort {le : α → α → Bool} {p : α → Bool}
    (hp : ∀ x y, p x = true → p y = true → le x y = true) :
    ∀ (l : List α), (stableSort le l).filter p = l.filter p
  | [] => rfl
  | a :: l => by
    simp only [stableSort]
    rw [filter_orderedInsert hp, filter_stableSort hp l, List.filter_cons]

/-!
Properties of the line decomposition.
-/

theorem linesOf_ne_nil : ∀ (s : Str), linesOf s ≠ []
  | [] => by simp [linesOf]
  | c :: s => by
    simp only [linesOf]
    split <;> simp

theorem linesOf_newline (s : Str) : linesOf ('\n' :: s) = [] :: linesOf s := by
  simp [linesOf]

theorem linesOf_cons_ne {c : Char} (hc : c ≠ '\n') (s : Str) :
    linesOf (c :: s) = (c :: (linesOf s).headD []) :: (linesOf s).tail := by
  simp [linesOf, hc]

theorem linesOf_append_newline : ∀ (a b : Str), linesOf (a ++ '\n' :: b) = linesOf a ++ linesOf b
  | [], b => by
    rw [List.nil_append, linesOf_newline]
    rfl
  | c :: a, b => by
    by_cases hc : c = '\n'
    · subst hc
      rw [List.cons_append, linesOf_newline, linesOf_newline, linesOf_append_newline a b,
        List.cons_append]
    · rw [List.cons_append, linesOf_cons_ne hc, linesOf_append_newline a b, linesOf_cons_ne hc]
      obtain ⟨l, ls, h⟩ := List.exists_cons_of_ne_nil (linesOf_ne_nil a)
      rw [h]
      simp

theorem linesOf_of_clean : ∀ {s : Str}, '\n' ∉ s → linesOf s = [s]
  | [], _ => rfl
  | c :: s, h => by
    have hc : c ≠ '\n' := by
      rintro rfl
      exact h (List.mem_cons_self _ _)
    have hs : '\n' ∉ s := fun m => h (List.mem_cons_of_mem c m)
    rw [linesOf_cons_ne hc, linesOf_of_clean hs]
    rfl

theorem linesOf_joinWith_nn : ∀ (parts : List Str), parts ≠ [] →
    linesOf (joinWith (str "\n\n") parts) = blockJoin (parts.map linesOf)
  | [], h => absurd rfl h
  | [p], _ => by
    show linesOf p = blockJoin [linesOf p]
    rfl
  | p :: q :: rest, _ => by
    show linesOf (p ++ str "\n\n" ++ joinWith (str "\n\n") (q :: rest)) = _
    have hsep : p ++ str "\n\n" ++ joinWith (str "\n\n") (q :: rest)
        = p ++ '\n' :: ('\n' :: joinWith (str "\n\n") (q :: rest)) := by
      rw [show str "\n\n" = ['\n', '\n'] from rfl]
      simp
    rw [hsep, linesOf_append_newline, linesOf_newline,
      linesOf_joinWith_nn (q :: rest) (by simp)]
    show _ = blockJoin (linesOf p :: linesOf q :: rest.map linesOf)
    rw [show blockJoin (linesOf p :: linesOf q :: rest.map linesOf)
        = linesOf p ++ [] :: blockJoin (linesOf q :: rest.map linesOf) from rfl]
    rfl

theorem linesOf_joinWith_n : ∀ (parts : List Str), parts ≠ [] →
    linesOf (joinWith (str "\n") parts) = (parts.map linesOf).flatten
  | [], h => absurd rfl h
  | [p], _ => by
    show linesOf p = ([linesOf p] : List (List Str)).flatten
    simp
  | p :: q :: rest, _ => by
    show linesOf (p ++ str "\n" ++ joinWith (str "\n") (q :: rest)) = _
    have hsep : p ++ str "\n" ++ joinWith (str "\n") (q :: rest)
        = p ++ '\n' :: joinWith (str "\n") (q :: rest) := by
      rw [show str "\n" = ['\n'] from rfl]
      simp
    rw [hsep, linesOf_append_newline, linesOf_joinWith_n (q :: rest) (by simp)]
    simp

theorem blockJoin_append_cons : ∀ (ps : List (List Str)), ps ≠ [] →
    ∀ (q : List Str) (rest : List (List Str)),
      blockJoin (ps ++ q :: rest) = blockJoin ps ++ [] :: blockJoin (q :: rest)
  | [], h, _, _ => absurd rfl h
  | [p], _, q, rest => by
    show blockJoin (p :: q :: rest) = p ++ [] :: blockJoin (q :: rest)
    rfl
  | p :: p' :: ps, _, q, rest => by
    show p ++ [] :: blockJoin ((p' :: ps) ++ q :: rest)
        = (p ++ [] :: blockJoin (p' :: ps)) ++ [] :: blockJoin (q :: rest)
    rw [blockJoin_append_cons (p' :: ps) (by simp) q rest]
    simp

/-!
Newline-freedom propagation through the renderers.
-/

theorem nomem_append {c : Char} {a b : Str} (ha : c ∉ a) (hb : c ∉ b) : c ∉ a ++ b :=
  fun h => (List.mem_append.mp h).elim ha hb

theorem clean_formatAccount {a : Str} (h : '\n' ∉ a) : '\n' ∉ Compiler.formatAccount a := by
  simp only [Compiler.formatAccount]
  split
  · decide
  · split
    · exact h
    · exact nomem_append (by decide) h

theorem cleanOpt_getD {o : Option Str} (h : cleanOpt o = true) : '\n' ∉ o.getD [] := by
  cases o with
  | none => simp
  | some s => simpa [cleanOpt, cleanStr] using h

theorem clean_formatSource {p : Posting} (hs : '\n' ∉ p.source) (ha : '\n' ∉ p.asset)
    (ho : '\n' ∉ p.overdraft_limit.getD []) : '\n' ∉ Compiler.formatSource p := by
  simp only [Compiler.formatSource]
  have hacc := clean_formatAccount hs
  split
  · exact hacc
  · split
    · exact nomem_append hacc (by decide)
    · split
      · exact nomem_append (nomem_append (nomem_append (nomem_append (nomem_append hacc
          (by decide)) ha) (by decide)) ho) (by decide)
      · exact hacc

theorem clean_formatSplitRule {r : SplitRule} {asset : Str}
    (ht : '\n' ∉ r.target) (hv : '\n' ∉ r.value) (ha : '\n' ∉ asset) :
    '\n' ∉ Compiler.formatSplitRule r asset := by
  obtain ⟨t, m, v⟩ := r
  have htgt := clean_formatAccount ht
  cases m with
  | fraction =>
    have hval : '\n' ∉ (if '%' ∈ v then v else v ++ str "%") := by
      split
      · exact hv
      · exact nomem_append hv (by decide)
    exact nomem_append (nomem_append (nomem_append (by decide) hval) (by decide)) htgt
  | max =>
    exact nomem_append (nomem_append (nomem_append (nomem_append (nomem_append (by decide) ha)
      (by decide)) hv) (by decide)) htgt
  | remaining => exact nomem_append (by decide) htgt

theorem clean_metaLine {m : MetadataEntry} (hk : '\n' ∉ m.key) (hv : '\n' ∉ m.value) :
    '\n' ∉ Compiler.metaLine m :=
  nomem_append (nomem_append (nomem_append (nomem_append (by decide) hk) (by decide)) hv)
    (by decide)

theorem cleanPosting_fields {p : Posting} (h : cleanPosting p = true) :
    '\n' ∉ p.source ∧ '\n' ∉ p.asset ∧ '\n' ∉ p.amount
      ∧ '\n' ∉ p.simple_destination.getD [] ∧ '\n' ∉ p.overdraft_limit.getD []
      ∧ ∀ r ∈ p.split_rules.getD [], '\n' ∉ r.target ∧ '\n' ∉ r.value := by
  simp only [cleanPosting, Bool.and_eq_true] at h
  obtain ⟨⟨⟨⟨⟨h1, h2⟩, h3⟩, h4⟩, h5⟩, h6⟩ := h
  refine ⟨by simpa [cleanStr] using h1, by simpa [cleanStr] using h2,
    by simpa [cleanStr] using h3, cleanOpt_getD h4, cleanOpt_getD h5, ?_⟩
  intro r hr
  cases hrs : p.split_rules with
  | none =>
    rw [hrs] at hr
    simp at hr
  | some rs =>
    rw [hrs] at hr h6
    simp only [Option.getD_some] at hr
    have h7 := List.all_eq_true.mp (show rs.all cleanRule = true by simpa [cleanRules] using h6)
      r hr
    have h8 : cleanStr r.target = true ∧ cleanStr r.value = true := by
      simpa [cleanRule, Bool.and_eq_true] using h7
    rcases h8 with ⟨ha, hb⟩
    exact ⟨by simpa [cleanStr] using ha, by simpa [cleanStr] using hb⟩

theorem cleanIntent_fields {i : NumscriptIntent} (h : cleanIntent i = true) :
    '\n' ∉ i.summary ∧ (∀ p ∈ i.postings, cleanPosting p = true)
      ∧ ∀ m ∈ metaListOf i, '\n' ∉ m.key ∧ '\n' ∉ m.value := by
  simp only [cleanIntent, Bool.and_eq_true] at h
  obtain ⟨⟨h1, h2⟩, h3⟩ := h
  refine ⟨by simpa [cleanStr] using h1, List.all_eq_true.mp h2, ?_⟩
  intro m hm
  simp only [metaListOf] at hm
  cases hmd : i.metadata with
  | none =>
    rw [hmd] at hm
    simp at hm
  | some md =>
    rw [hmd] at hm h3
    simp only [Option.getD_some] at hm
    have h7 := List.all_eq_true.mp (show md.all cleanMeta = true by simpa using h3) m hm
    have h8 : cleanStr m.key = true ∧ cleanStr m.value = true := by
      simpa [cleanMeta, Bool.and_eq_true] using h7
    rcases h8 with ⟨ha, hb⟩
    exact ⟨by simpa [cleanStr] using ha, by simpa [cleanStr] using hb⟩

theorem linesOf_flatten_of_clean {ls : List Str} (h : ∀ x ∈ ls, '\n' ∉ x) :
    (ls.map linesOf).flatten = ls := by
  induction ls with
  | nil => rfl
  | cons x ls ih =>
    rw [List.map_cons, List.flatten_cons, linesOf_of_clean (h x (List.mem_cons_self _ _)),
      ih fun y hy => h y (List.mem_cons_of_mem _ hy)]
    rfl

theorem clean_splitLines {rs : List SplitRule} {asset : Str}
    (hr : ∀ r ∈ rs, '\n' ∉ r.target ∧ '\n' ∉ r.value) (ha : '\n' ∉ asset) :
    ∀ x ∈ Compiler.splitLines rs asset, '\n' ∉ x := by
  intro x hx
  simp only [Compiler.splitLines, Compiler.sortSplitRules, List.mem_map] at hx
  obtain ⟨r, hrmem, rfl⟩ := hx
  have hmem := mem_stableSort.mp hrmem
  exact clean_formatSplitRule (hr r hmem).1 (hr r hmem).2 ha

theorem linesOf_compilePosting {p : Posting} (hc : cleanPosting p = true) {s : Str}
    (h : Compiler.compilePosting p = Except.ok s) : linesOf s = postingLines p := by
  obtain ⟨hsrc, hasset, hamt, hsd, hol, hrules⟩ := cleanPosting_fields hc
  have hAmtVal : '\n' ∉ (if p.amount = str "*" then str "*" else p.amount) := by
    split
    · decide
    · exact hamt
  have hInner : '\n' ∉ str "[" ++ p.asset ++ str " "
      ++ (if p.amount = str "*" then str "*" else p.amount) ++ str "]" :=
    nomem_append (nomem_append (nomem_append (nomem_append (by decide) hasset) (by decide))
      hAmtVal) (by decide)
  have hL1 : '\n' ∉ sendLine p := nomem_append (nomem_append (by decide) hInner) (by decide)
  have hL2 : '\n' ∉ str "  source = " ++ Compiler.formatSource p :=
    nomem_append (by decide) (clean_formatSource hsrc hasset hol)
  cases hd : Compiler.destinationResult p with
  | error e =>
    simp only [Compiler.compilePosting, hd] at h
    exact Except.noConfusion h
  | ok d =>
    simp only [Compiler.compilePosting, hd] at h
    have hs : s = joinWith (str "\n")
        [sendLine p, str "  source = " ++ Compiler.formatSource p,
         str "  destination = " ++ d, str ")"] := (Except.ok.inj h).symm
    subst hs
    rw [linesOf_joinWith_n _ (by simp), List.map_cons, List.map_cons, List.map_cons,
      List.map_cons, List.map_nil, linesOf_of_clean hL1, linesOf_of_clean hL2,
      linesOf_of_clean (show ('\n' : Char) ∉ str ")" by decide)]
    simp only [List.flatten_cons, List.flatten_nil, List.append_nil]
    by_cases h1 : p.destination_type = DestinationType.simple
        ∧ truthyStr p.simple_destination = true
    · simp only [Compiler.destinationResult] at hd
      rw [if_pos h1] at hd
      have hdd : d = Compiler.formatAccount (p.simple_destination.getD []) :=
        (Except.ok.inj hd).symm
      subst hdd
      rw [linesOf_of_clean (nomem_append (by decide) (clean_formatAccount hsd))]
      simp [postingLines, destLines, if_pos h1]
    · by_cases h2 : p.destination_type = DestinationType.split ∧ p.split_rules.isSome = true
      · simp only [Compiler.destinationResult] at hd
        rw [if_neg h1, if_pos h2] at hd
        have hdd : d = Compiler.formatSplitDestination (p.split_rules.getD []) p.asset :=
          (Except.ok.inj hd).symm
        subst hdd
        have hre : str "  destination = "
            ++ Compiler.formatSplitDestination (p.split_rules.getD []) p.asset
            = (str "  destination = \x7b") ++ '\n'
              :: (joinWith (str "\n") (Compiler.splitLines (p.split_rules.getD []) p.asset)
                  ++ '\n' :: str "  \x7d") := by
          simp only [Compiler.formatSplitDestination]
          rw [show (str "\x7b\n" : Str) = '\x7b' :: '\n' :: [] from rfl,
            show (str "\n  \x7d" : Str) = '\n' :: str "  \x7d" from rfl,
            show (str "  destination = \x7b" : Str) = str "  destination = " ++ ['\x7b'] from rfl]
          simp [List.append_assoc]
        rw [hre, linesOf_append_newline,
          linesOf_of_clean (show ('\n' : Char) ∉ str "  destination = \x7b" by decide),
          linesOf_append_newline,
          linesOf_of_clean (show ('\n' : Char) ∉ str "  \x7d" by decide)]
        cases hsl : Compiler.splitLines (p.split_rules.getD []) p.asset with
        | nil =>
          simp [postingLines, destLines, if_neg h1, hsl, joinWith, linesOf]
        | cons l ls =>
          rw [linesOf_joinWith_n _ (by simp),
            linesOf_flatten_of_clean
              (fun x hx => clean_splitLines hrules hasset x (by rw [hsl]; exact hx))]
          simp [postingLines, destLines, if_neg h1, hsl]
      · simp only [Compiler.destinationResult] at hd
        rw [if_neg h1, if_neg h2] at hd
        cases hd

theorem map_linesOf_compilePostings : ∀ {ps : List Posting},
    (∀ p ∈ ps, cleanPosting p = true) → ∀ {ss : List Str},
      Compiler.compilePostings ps = Except.ok ss → ss.map linesOf = ps.map postingLines
  | [], _, ss, h => by
    simp only [Compiler.compilePostings] at h
    have hss : ss = [] := (Except.ok.inj h).symm
    subst hss
    rfl
  | p :: ps, hc, ss, h => by
    cases hp : Compiler.compilePosting p with
    | error e =>
      simp only [Compiler.compilePostings, hp] at h
      exact Except.noConfusion h
    | ok s =>
      cases hps : Compiler.compilePostings ps with
      | error e =>
        simp only [Compiler.compilePostings, hp, hps] at h
        exact Except.noConfusion h
      | ok ss' =>
        simp only [Compiler.compilePostings, hp, hps] at h
        have hss : ss = s :: ss' := (Except.ok.inj h).symm
        subst hss
        rw [List.map_cons, List.map_cons,
          linesOf_compilePosting (hc p (List.mem_cons_self _ _)) hp,
          map_linesOf_compilePostings (fun q hq => hc q (List.mem_cons_of_mem _ hq)) hps]

theorem linesOf_compileToNumscript {intent : NumscriptIntent} (hc : cleanIntent intent = true)
    (hpne : intent.postings ≠ []) {out : Str}
    (h : Compiler.compileToNumscript intent = Except.ok out) :
    linesOf out = (str "// " ++ intent.summary) :: [] :: [] :: [] ::
        blockJoin (intent.postings.map postingLines)
      ++ (if 0 < (metaListOf intent).length then
            [] :: [] :: [] :: blockJoin ((metaListOf intent).map fun m => [Compiler.metaLine m])
          else []) := by
  obtain ⟨hsum, hposts, hmeta⟩ := cleanIntent_fields hc
  have hhdr : '\n' ∉ str "// " ++ intent.summary := nomem_append (by decide) hsum
  obtain ⟨P, Ps, hP⟩ :=
    List.exists_cons_of_ne_nil (show intent.postings.map postingLines ≠ [] by simpa using hpne)
  cases hps : Compiler.compilePostings intent.postings with
  | error e =>
    simp only [Compiler.compileToNumscript, hps] at h
    exact Except.noConfusion h
  | ok ss =>
    have hmap : ss.map linesOf = intent.postings.map postingLines :=
      map_linesOf_compilePostings hposts hps
    cases hmd : intent.metadata with
    | none =>
      simp only [Compiler.compileToNumscript, hps, hmd] at h
      have ho : out = joinWith (str "\n\n") ((str "// " ++ intent.summary) :: [] :: ss) :=
        (Except.ok.inj h).symm
      subst ho
      rw [linesOf_joinWith_nn _ (by simp), List.map_cons, List.map_cons,
        linesOf_of_clean hhdr, hmap, hP,
        show linesOf ([] : Str) = [[]] from rfl]
      simp only [metaListOf, hmd, Option.getD_none, List.length_nil, Nat.lt_irrefl, if_false,
        List.append_nil]
      rfl
    | some md =>
      by_cases hlen0 : 0 < md.length
      · simp only [Compiler.compileToNumscript, hps, hmd, if_pos hlen0] at h
        have ho : out = joinWith (str "\n\n")
            (((str "// " ++ intent.summary) :: [] :: ss) ++ [] :: Compiler.compileMetadata md) :=
          (Except.ok.inj h).symm
        subst ho
        have hmm : (Compiler.compileMetadata md).map linesOf = md.map fun m => [Compiler.metaLine m] := by
          simp only [Compiler.compileMetadata, List.map_map]
          refine List.map_congr_left ?_
          intro m hm
          have hclean := hmeta m (by simp [metaListOf, hmd]; exact hm)
          exact linesOf_of_clean (clean_metaLine hclean.1 hclean.2)
        obtain ⟨M, Ms, hM⟩ :=
          List.exists_cons_of_ne_nil (show md.map (fun m => [Compiler.metaLine m]) ≠ [] by
            simpa using fun hnil => by simp [hnil] at hlen0)
        rw [linesOf_joinWith_nn _ (by simp), List.map_append, List.map_cons, List.map_cons,
          List.map_cons, linesOf_of_clean hhdr, hmap, hmm, hP, hM,
          show linesOf ([] : Str) = [[]] from rfl,
          blockJoin_append_cons _ (by simp) _ _]
        simp only [metaListOf, hmd, Option.getD_some, if_pos hlen0, hM]
        rfl
      · simp only [Compiler.compileToNumscript, hps, hmd, if_neg hlen0] at h
        have ho : out = joinWith (str "\n\n") ((str "// " ++ intent.summary) :: [] :: ss) :=
          (Except.ok.inj h).symm
        subst ho
        rw [linesOf_joinWith_nn _ (by simp), List.map_cons, List.map_cons,
          linesOf_of_clean hhdr, hmap, hP,
          show linesOf ([] : Str) = [[]] from rfl]
        simp only [metaListOf, hmd, Option.getD_some, if_neg hlen0, List.append_nil]
        rfl

/-!
Classification of script lines by the statement they begin.
-/

theorem isSendLine_sendLine (p : Posting) : isSendLine (sendLine p) = true := rfl

theorem isSendLine_sourceLine (p : Posting) :
    isSendLine (str "  source = " ++ Compiler.formatSource p) = false := rfl

theorem isSendLine_destSimple (x : Str) : isSendLine (str "  destination = " ++ x) = false := rfl

theorem isSendLine_header (x : Str) : isSendLine (str "// " ++ x) = false := rfl

theorem isSendLine_metaLine (m : MetadataEntry) : isSendLine (Compiler.metaLine m) = false := rfl

theorem isSendLine_nil : isSendLine [] = false := rfl

theorem isSendLine_formatSplitRule (r : SplitRule) (asset : Str) :
    isSendLine (Compiler.formatSplitRule r asset) = false := by
  obtain ⟨t, m, v⟩ := r
  cases m <;> rfl

theorem isMetaLine_sendLine (p : Posting) : isMetaLine (sendLine p) = false := rfl

theorem isMetaLine_sourceLine (p : Posting) :
    isMetaLine (str "  source = " ++ Compiler.formatSource p) = false := rfl

theorem isMetaLine_destSimple (x : Str) : isMetaLine (str "  destination = " ++ x) = false := rfl

theorem isMetaLine_header (x : Str) : isMetaLine (str "// " ++ x) = false := rfl

theorem isMetaLine_metaLine (m : MetadataEntry) : isMetaLine (Compiler.metaLine m) = true := rfl

theorem isMetaLine_nil : isMetaLine [] = false := rfl

theorem isMetaLine_formatSplitRule (r : SplitRule) (asset : Str) :
    isMetaLine (Compiler.formatSplitRule r asset) = false := by
  obtain ⟨t, m, v⟩ := r
  cases m <;> rfl

theorem filter_isSendLine_splitLines (rs : List SplitRule) (asset : Str) :
    (Compiler.splitLines rs asset).filter isSendLine = [] := by
  rw [List.filter_eq_nil_iff]
  intro x hx
  simp only [Compiler.splitLines, List.mem_map] at hx
  obtain ⟨r, _, rfl⟩ := hx
  simp [isSendLine_formatSplitRule]

theorem filter_isMetaLine_splitLines (rs : List SplitRule) (asset : Str) :
    (Compiler.splitLines rs asset).filter isMetaLine = [] := by
  rw [List.filter_eq_nil_iff]
  intro x hx
  simp only [Compiler.splitLines, List.mem_map] at hx
  obtain ⟨r, _, rfl⟩ := hx
  simp [isMetaLine_formatSplitRule]

theorem isSendLine_destBrace : isSendLine (str "  destination = \x7b") = false := by decide

theorem isSendLine_braceClose : isSendLine (str "  \x7d") = false := by decide

theorem isSendLine_closeParen : isSendLine (str ")") = false := by decide

theorem isMetaLine_destBrace : isMetaLine (str "  destination = \x7b") = false := by decide

theorem isMetaLine_braceClose : isMetaLine (str "  \x7d") = false := by decide

theorem isMetaLine_closeParen : isMetaLine (str ")") = false := by decide

theorem filter_isSendLine_destLines (p : Posting) :
    (destLines p).filter isSendLine = [] := by
  rw [destLines]
  split
  · simp [List.filter_cons, isSendLine_destSimple]
  · simp only [List.cons_append]
    rw [List.filter_cons_of_neg (by simp [isSendLine_destBrace]), List.filter_append]
    cases hsl : Compiler.splitLines (p.split_rules.getD []) p.asset with
    | nil => simp [List.filter_cons, isSendLine_nil, isSendLine_braceClose]
    | cons l ls =>
      have hfil := filter_isSendLine_splitLines (p.split_rules.getD []) p.asset
      rw [hsl] at hfil
      simp [List.filter_cons, hfil, isSendLine_braceClose]

theorem filter_isMetaLine_destLines (p : Posting) :
    (destLines p).filter isMetaLine = [] := by
  rw [destLines]
  split
  · simp [List.filter_cons, isMetaLine_destSimple]
  · simp only [List.cons_append]
    rw [List.filter_cons_of_neg (by simp [isMetaLine_destBrace]), List.filter_append]
    cases hsl : Compiler.splitLines (p.split_rules.getD []) p.asset with
    | nil => simp [List.filter_cons, isMetaLine_nil, isMetaLine_braceClose]
    | cons l ls =>
      have hfil := filter_isMetaLine_splitLines (p.split_rules.getD []) p.asset
      rw [hsl] at hfil
      simp [List.filter_cons, hfil, isMetaLine_braceClose]

theorem filter_isSendLine_postingLines (p : Posting) :
    (postingLines p).filter isSendLine = [sendLine p] := by
  rw [postingLines]
  simp only [List.cons_append]
  rw [List.filter_cons_of_pos (isSendLine_sendLine p),
    List.filter_cons_of_neg (by simp [isSendLine_sourceLine]), List.filter_append,
    filter_isSendLine_destLines]
  simp [List.filter_cons, isSendLine_closeParen]

theorem filter_isMetaLine_postingLines (p : Posting) :
    (postingLines p).filter isMetaLine = [] := by
  rw [postingLines]
  simp only [List.cons_append]
  rw [List.filter_cons_of_neg (by simp [isMetaLine_sendLine]),
    List.filter_cons_of_neg (by simp [isMetaLine_sourceLine]), List.filter_append,
    filter_isMetaLine_destLines]
  simp [List.filter_cons, isMetaLine_closeParen]

theorem filter_isSendLine_blockJoin : ∀ (ps : List Posting),
    (blockJoin (ps.map postingLines)).filter isSendLine = ps.map sendLine
  | [] => rfl
  | [p] => filter_isSendLine_postingLines p
  | p :: q :: ps => by
    have ih := filter_isSendLine_blockJoin (q :: ps)
    show (postingLines p ++ [] :: blockJoin ((q :: ps).map postingLines)).filter isSendLine = _
    rw [List.filter_append, filter_isSendLine_postingLines,
      List.filter_cons_of_neg (by simp [isSendLine_nil]), ih]
    rfl

theorem filter_isMetaLine_blockJoin : ∀ (ps : List Posting),
    (blockJoin (ps.map postingLines)).filter isMetaLine = []
  | [] => rfl
  | [p] => filter_isMetaLine_postingLines p
  | p :: q :: ps => by
    have ih := filter_isMetaLine_blockJoin (q :: ps)
    show (postingLines p ++ [] :: blockJoin ((q :: ps).map postingLines)).filter isMetaLine = _
    rw [List.filter_append, filter_isMetaLine_postingLines,
      List.filter_cons_of_neg (by simp [isMetaLine_nil]), ih]
    rfl

theorem filter_isSendLine_metaBlock : ∀ (md : List MetadataEntry),
    (blockJoin (md.map fun m => [Compiler.metaLine m])).filter isSendLine = []
  | [] => rfl
  | [m] => by simp [blockJoin, List.filter_cons, isSendLine_metaLine]
  | m :: m' :: md => by
    have ih := filter_isSendLine_metaBlock (m' :: md)
    simp only [List.map_cons] at ih
    show ([Compiler.metaLine m] ++ [] :: blockJoin ((m' :: md).map fun x => [Compiler.metaLine x])).filter
        isSendLine = _
    simp only [List.map_cons]
    rw [List.filter_append, List.filter_cons_of_neg (by simp [isSendLine_metaLine]),
      List.filter_cons_of_neg (by simp [isSendLine_nil]), ih]
    simp

theorem filter_isMetaLine_metaBlock : ∀ (md : List MetadataEntry),
    (blockJoin (md.map fun m => [Compiler.metaLine m])).filter isMetaLine
      = md.map Compiler.metaLine
  | [] => rfl
  | [m] => by simp [blockJoin, List.filter_cons, isMetaLine_metaLine]
  | m :: m' :: md => by
    have ih := filter_isMetaLine_metaBlock (m' :: md)
    simp only [List.map_cons] at ih
    show ([Compiler.metaLine m] ++ [] :: blockJoin ((m' :: md).map fun x => [Compiler.metaLine x])).filter
        isMetaLine = _
    simp only [List.map_cons]
    rw [List.filter_append, List.filter_cons_of_pos (isMetaLine_metaLine m),
      List.filter_cons_of_neg (by simp [isMetaLine_nil]), ih]
    simp

/-!
Error propagation of the compiler.
-/

theorem compilePosting_error_msg {p : Posting} {e : Str}
    (h : Compiler.compilePosting p = Except.error e) :
    e = str "Invalid destination configuration" := by
  cases hd : Compiler.destinationResult p with
  | error e' =>
    have he' : e' = str "Invalid destination configuration" := by
      simp only [Compiler.destinationResult] at hd
      split at hd
      · exact Except.noConfusion hd
      · split at hd
        · exact Except.noConfusion hd
        · exact (Except.error.inj hd).symm
    simp only [Compiler.compilePosting, hd] at h
    exact (Except.error.inj h) ▸ he'
  | ok d =>
    simp only [Compiler.compilePosting, hd] at h
    exact Except.noConfusion h

theorem compilePosting_split_none {p : Posting}
    (hd : p.destination_type = DestinationType.split) (hr : p.split_rules = Option.none) :
    Compiler.compilePosting p = Except.error (str "Invalid destination configuration") := by
  have h1 : ¬(p.destination_type = DestinationType.simple
      ∧ truthyStr p.simple_destination = true) := by
    rintro ⟨ha, _⟩
    rw [hd] at ha
    exact DestinationType.noConfusion ha
  have h2 : ¬(p.destination_type = DestinationType.split ∧ p.split_rules.isSome = true) := by
    rintro ⟨_, hb⟩
    rw [hr] at hb
    simp at hb
  have hdr : Compiler.destinationResult p
      = Except.error (str "Invalid destination configuration") := by
    simp only [Compiler.destinationResult]
    rw [if_neg h1, if_neg h2]
  simp only [Compiler.compilePosting, hdr]

theorem compilePosting_simple_empty {p : Posting}
    (hd : p.destination_type = DestinationType.simple)
    (hr : p.simple_destination = Option.some []) :
    Compiler.compilePosting p = Except.error (str "Invalid destination configuration") := by
  have h1 : ¬(p.destination_type = DestinationType.simple
      ∧ truthyStr p.simple_destination = true) := by
    rintro ⟨_, hb⟩
    rw [hr] at hb
    simp [truthyStr] at hb
  have h2 : ¬(p.destination_type = DestinationType.split ∧ p.split_rules.isSome = true) := by
    rintro ⟨ha, _⟩
    rw [hd] at ha
    exact DestinationType.noConfusion ha
  have hdr : Compiler.destinationResult p
      = Except.error (str "Invalid destination configuration") := by
    simp only [Compiler.destinationResult]
    rw [if_neg h1, if_neg h2]
  simp only [Compiler.compilePosting, hdr]

theorem compilePosting_simple_none {p : Posting}
    (hd : p.destination_type = DestinationType.simple)
    (hr : p.simple_destination = Option.none) :
    Compiler.compilePosting p = Except.error (str "Invalid destination configuration") := by
  have h1 : ¬(p.destination_type = DestinationType.simple
      ∧ truthyStr p.simple_destination = true) := by
    rintro ⟨_, hb⟩
    rw [hr] at hb
    simp [truthyStr] at hb
  have h2 : ¬(p.destination_type = DestinationType.split ∧ p.split_rules.isSome = true) := by
    rintro ⟨ha, _⟩
    rw [hd] at ha
    exact DestinationType.noConfusion ha
  have hdr : Compiler.destinationResult p
      = Except.error (str "Invalid destination configuration") := by
    simp only [Compiler.destinationResult]
    rw [if_neg h1, if_neg h2]
  simp only [Compiler.compilePosting, hdr]

theorem compilePostings_error_of_mem : ∀ {ps : List Posting} {p : Posting}, p ∈ ps →
    ∀ {e : Str}, Compiler.compilePosting p = Except.error e →
      ∃ e', Compiler.compilePostings ps = Except.error e'
  | [], p, hmem, _, _ => absurd hmem (List.not_mem_nil p)
  | q :: ps, p, hmem, e, herr => by
    cases hq : Compiler.compilePosting q with
    | error e' =>
      exact ⟨e', by simp only [Compiler.compilePostings, hq]⟩
    | ok s =>
      rcases List.mem_cons.mp hmem with rfl | hmem'
      · rw [hq] at herr
        exact Except.noConfusion herr
      · obtain ⟨e', he'⟩ := compilePostings_error_of_mem hmem' herr
        exact ⟨e', by simp only [Compiler.compilePostings, hq, he']⟩

theorem compilePostings_error_msg : ∀ {ps : List Posting} {e : Str},
    Compiler.compilePostings ps = Except.error e → e = str "Invalid destination configuration"
  | [], e, h => by
    simp only [Compiler.compilePostings] at h
    exact Except.noConfusion h
  | p :: ps, e, h => by
    cases hp : Compiler.compilePosting p with
    | error e' =>
      simp only [Compiler.compilePostings, hp] at h
      exact (Except.error.inj h) ▸ compilePosting_error_msg hp
    | ok s =>
      cases hps : Compiler.compilePostings ps with
      | error e' =>
        simp only [Compiler.compilePostings, hp, hps] at h
        exact (Except.error.inj h) ▸ compilePostings_error_msg hps
      | ok ss =>
        simp only [Compiler.compilePostings, hp, hps] at h
        exact Except.noConfusion h

theorem compileToNumscript_error_of {intent : NumscriptIntent} {e : Str}
    (h : Compiler.compilePostings intent.postings = Except.error e) :
    Compiler.compileToNumscript intent = Except.error e := by
  simp only [Compiler.compileToNumscript, h]

theorem compileToNumscript_error_msg {intent : NumscriptIntent} {e : Str}
    (h : Compiler.compileToNumscript intent = Except.error e) :
    e = str "Invalid destination configuration" := by
  cases hps : Compiler.compilePostings intent.postings with
  | error e' =>
    simp only [Compiler.compileToNumscript, hps] at h
    exact (Except.error.inj h) ▸ compilePostings_error_msg hps
  | ok ss =>
    simp only [Compiler.compileToNumscript, hps] at h
    exact Except.noConfusion h

/-!
Claim theorems.
-/

/-- C1 (amended): a Posting with `destination_type = "split"` whose
`split_rules` field is absent makes the posting render fail with the
MalformedPosting error ("Invalid destination configuration"), aborting
compilation of the whole intent with no script text returned.  (The
original claim also covered a present-but-empty `split_rules` list, but
an empty array is truthy in JavaScript, so the code accepts it and
renders an empty distribution block — see `C1_counterexample`.) -/
theorem C1_absent_split_rules_abort (intent : NumscriptIntent) (p : Posting)
    (hmem : p ∈ intent.postings) (hd : p.destination_type = DestinationType.split)
    (hr : p.split_rules = Option.none) :
    Compiler.compileToNumscript intent = Except.error (str "Invalid destination configuration") := by
  obtain ⟨e', he'⟩ := compilePostings_error_of_mem hmem (compilePosting_split_none hd hr)
  have hmsg := compilePostings_error_msg he'
  subst hmsg
  exact compileToNumscript_error_of he'

/-- C1 witness: the absent-`split_rules` intent `iSplitNone` aborts with
the MalformedPosting error. -/
theorem C1_witness : Compiler.compileToNumscript iSplitNone
    = Except.error (str "Invalid destination configuration") :=
  C1_absent_split_rules_abort iSplitNone pSplitNone (by decide) (by decide) (by decide)

/-- C1 counterexample: a posting with `destination_type = "split"` and a
present but empty `split_rules` list does not fail — the whole intent
compiles and returns a script with an empty distribution block, contrary
to the claim that compilation aborts with `MalformedPosting`. -/
theorem C1_counterexample :
    isOkB (Compiler.compileToNumscript iEmptySplit) = true
      ∧ okOr (Compiler.compileToNumscript iEmptySplit)
        = str "// s\n\n\n\nsend [USD/2 5] (\n  source = @a\n  destination = \x7b\n\n  \x7d\n)" := by
  exact ⟨rfl, rfl⟩

/-- C9 (amended): whenever compilation fails, the single propagated
error is the fixed generic message "Invalid destination configuration";
it identifies neither the failing posting's index nor the specific
malformation. -/
theorem C9_generic_error (intent : NumscriptIntent) (e : Str)
    (h : Compiler.compileToNumscript intent = Except.error e) :
    e = str "Invalid destination configuration" :=
  compileToNumscript_error_msg h

/-- C9 witness: the amended theorem applied to the concrete failing
intent `iBadSimple`. -/
theorem C9_witness :
    str "Invalid destination configuration" = str "Invalid destination configuration" :=
  C9_generic_error iBadSimple (str "Invalid destination configuration") rfl

/-- C9 counterexample: an intent failing at posting index 0 because
`simple_destination` is absent and an intent failing at posting index 1
because `split_rules` is absent produce the identical error string, so
the error identifies neither the posting index nor the cause. -/
theorem C9_counterexample :
    Compiler.compileToNumscript iBadSimple
        = Except.error (str "Invalid destination configuration")
      ∧ Compiler.compileToNumscript iSplitNone
        = Except.error (str "Invalid destination configuration") :=
  ⟨rfl, rfl⟩

/-- C10: a Posting with `destination_type = "simple"` whose
`simple_destination` is present but equal to the empty string fails with
the same MalformedPosting error ("Invalid destination configuration") as
when the field is absent (the empty string is falsy in JavaScript), and
the whole compilation aborts. -/
theorem C10_empty_simple_destination (intent : NumscriptIntent) (p : Posting)
    (hmem : p ∈ intent.postings) (hd : p.destination_type = DestinationType.simple)
    (hr : p.simple_destination = Option.some []) :
    Compiler.compileToNumscript intent = Except.error (str "Invalid destination configuration")
      ∧ Compiler.compilePosting p
        = Compiler.compilePosting { p with simple_destination := Option.none } := by
  constructor
  · obtain ⟨e', he'⟩ := compilePostings_error_of_mem hmem (compilePosting_simple_empty hd hr)
    have hmsg := compilePostings_error_msg he'
    subst hmsg
    exact compileToNumscript_error_of he'
  · rw [compilePosting_simple_empty hd hr,
      compilePosting_simple_none (p := { p with simple_destination := Option.none }) hd rfl]

/-- C10 witness: the empty-string-destination intent `iEmptyDest` aborts
with the MalformedPosting error, identically to the absent-field case. -/
theorem C10_witness :
    Compiler.compileToNumscript iEmptyDest
        = Except.error (str "Invalid destination configuration")
      ∧ Compiler.compilePosting pEmptyDest
        = Compiler.compilePosting { pEmptyDest with simple_destination := Option.none } :=
  C10_empty_simple_destination iEmptyDest pEmptyDest (by decide) (by decide) (by decide)

/-- C6: for every Posting whose source is the unlimited-source sentinel
in raw ("world") or formatted ("@world") form, the rendered source
clause is exactly the formatted account — the literal "@world" — with no
overdraft-allowance suffix, whatever `source_overdraft` and
`overdraft_limit` hold. -/
theorem C6_world_source_no_overdraft (p : Posting)
    (h : p.source = str "world" ∨ p.source = str "@world") :
    Compiler.formatSource p = Compiler.formatAccount p.source
      ∧ Compiler.formatSource p = str "@world" := by
  have hfs : Compiler.formatSource p = Compiler.formatAccount p.source := by
    simp only [Compiler.formatSource]
    rw [if_pos h]
  have hfa : Compiler.formatAccount p.source = str "@world" := by
    rcases h with h | h <;> rw [h] <;> decide
  exact ⟨hfs, hfs.trans hfa⟩

/-- C6 witness: the world-source posting requesting an unbounded
overdraft still renders as the bare "@world". -/
theorem C6_witness :
    Compiler.formatSource pWorld = Compiler.formatAccount pWorld.source
      ∧ Compiler.formatSource pWorld = str "@world" :=
  C6_world_source_no_overdraft pWorld (Or.inl (by decide))

/-- C3: the conflicting-split-modes diagnostic (the console warning of
`formatSplitDestination`, modelled by `splitWarnings`) is raised exactly
when the rules contain at least one fraction rule and at least one max
rule, regardless of order or count; blocks that do not mix the two modes
raise no diagnostic. -/
theorem C3_conflict_diagnostic_iff (rules : List SplitRule) :
    Compiler.splitWarnings rules ≠ []
      ↔ (∃ r ∈ rules, r.amount_mode = AmountMode.fraction)
        ∧ ∃ r ∈ rules, r.amount_mode = AmountMode.max := by
  by_cases h : (Compiler.hasMax rules && Compiler.hasFraction rules) = true
  · rw [Compiler.splitWarnings, if_pos h]
    simp only [Bool.and_eq_true, Compiler.hasMax, Compiler.hasFraction, List.any_eq_true,
      decide_eq_true_eq] at h
    constructor
    · intro _
      exact ⟨h.2, h.1⟩
    · intro _
      simp
  · rw [Compiler.splitWarnings, if_neg h]
    constructor
    · intro hne
      exact absurd rfl hne
    · rintro ⟨⟨rf, hrf, hmf⟩, rm, hrm, hmm⟩
      refine absurd ?_ h
      simp only [Bool.and_eq_true, Compiler.hasMax, Compiler.hasFraction, List.any_eq_true,
        decide_eq_true_eq]
      exact ⟨⟨rm, hrm, hmm⟩, rf, hrf, hmf⟩

theorem splitLe_trans (a b c : SplitRule) (hab : Compiler.splitLe a b = true)
    (hbc : Compiler.splitLe b c = true) : Compiler.splitLe a c = true := by
  simp only [Compiler.splitLe, decide_eq_true_eq] at hab hbc ⊢
  exact Nat.le_trans hab hbc

theorem splitLe_total (a b : SplitRule) :
    Compiler.splitLe a b = true ∨ Compiler.splitLe b a = true := by
  simp only [Compiler.splitLe, decide_eq_true_eq]
  exact Nat.le_total _ _

/-- C4: in the sorted rule list of the first variant's split renderer
(whose rendered block lists line k for rule k via `splitLines`), every
rule after a remaining rule is itself a remaining rule — equivalently,
all fraction and max rules precede all remaining rules, for every input
order. -/
theorem C4_remaining_last (rules : List SplitRule) (i j : Nat)
    (hi : i < (Compiler.sortSplitRules rules).length)
    (hj : j < (Compiler.sortSplitRules rules).length) (hij : i < j)
    (hrem : ((Compiler.sortSplitRules rules).get ⟨i, hi⟩).amount_mode = AmountMode.remaining) :
    ((Compiler.sortSplitRules rules).get ⟨j, hj⟩).amount_mode = AmountMode.remaining := by
  have hpw : (Compiler.sortSplitRules rules).Pairwise
      (fun x y => Compiler.splitLe x y = true) :=
    pairwise_stableSort splitLe_trans splitLe_total rules
  have hle := List.pairwise_iff_getElem.mp hpw i j hi hj hij
  simp only [Compiler.splitLe, decide_eq_true_eq] at hle
  rw [List.get_eq_getElem] at hrem
  rw [List.get_eq_getElem]
  rw [hrem] at hle
  cases hmode : ((Compiler.sortSplitRules rules)[j]).amount_mode with
  | fraction =>
    rw [hmode] at hle
    simp [Compiler.splitOrder] at hle
  | max =>
    rw [hmode] at hle
    simp [Compiler.splitOrder] at hle
  | remaining => rfl

/-- C4 witness: in the sorted form of `[rRem, rFrac, rRem2]` the rule at
index 1 is remaining, so the rule at index 2 behind it is remaining too. -/
theorem C4_witness :
    ((Compiler.sortSplitRules [rRem, rFrac, rRem2]).get ⟨2, by decide⟩).amount_mode
      = AmountMode.remaining :=
  C4_remaining_last [rRem, rFrac, rRem2] 1 2 (by decide) (by decide) (by decide) (by decide)

/-- C5 (amended): the first compiler variant preserves the relative
input order of all non-remaining (fraction and max) rules among
themselves, because they share one sort key of its stable sort; the
second variant sorts fraction rules before max rules and therefore
preserves relative input order only among rules of one and the same
mode. -/
theorem C5_stability (rules : List SplitRule) :
    ((Compiler.sortSplitRules rules).filter fun r =>
          decide (r.amount_mode ≠ AmountMode.remaining))
        = rules.filter (fun r => decide (r.amount_mode ≠ AmountMode.remaining))
      ∧ ∀ m : AmountMode,
        ((Compiler2.sortSplitRules rules).filter fun r => decide (r.amount_mode = m))
          = rules.filter fun r => decide (r.amount_mode = m) := by
  constructor
  · refine filter_stableSort ?_ rules
    intro x y hx _
    simp only [decide_eq_true_eq] at hx
    simp only [Compiler.splitLe, decide_eq_true_eq]
    cases hmx : x.amount_mode with
    | fraction => simp [Compiler.splitOrder]
    | max => simp [Compiler.splitOrder]
    | remaining => exact absurd hmx hx
  · intro m
    refine filter_stableSort ?_ rules
    intro x y hx hy
    simp only [decide_eq_true_eq] at hx hy
    simp [Compiler2.splitLe, hx, hy]

/-- C5 counterexample: the second variant's renderer violates the claim:
on the input `[rMax, rFrac]` the max rule precedes the fraction rule,
yet the rendered block lists the fraction line first. -/
theorem C5_counterexample :
    Compiler2.sortSplitRules [rMax, rFrac] = [rFrac, rMax]
      ∧ Compiler2.splitLines [rMax, rFrac] (str "USD/2")
        = [str "    10% to @b", str "    max [USD/2 1000] to @a"] := by
  exact ⟨rfl, rfl⟩

/-- C2 (amended): on a split block mixing max and fraction rules the
renderer still produces output and raises the conflict warning, but each
rule keeps its own rendering mode: every fraction rule contributes its
percentage-form line and every max rule its capped-allocation-form line
to the rendered block. -/
theorem C2_mixed_modes_kept (rules : List SplitRule) (asset : Str)
    (hmix : Compiler.hasMax rules = true ∧ Compiler.hasFraction rules = true) :
    Compiler.splitWarnings rules ≠ []
      ∧ ∀ r ∈ rules,
        (r.amount_mode = AmountMode.fraction →
          percentLine r ∈ Compiler.splitLines rules asset)
        ∧ (r.amount_mode = AmountMode.max →
          maxLine r asset ∈ Compiler.splitLines rules asset) := by
  constructor
  · simp [Compiler.splitWarnings, hmix.1, hmix.2]
  · intro r hr
    have hmem : r ∈ Compiler.sortSplitRules rules := by
      simp only [Compiler.sortSplitRules]
      exact mem_stableSort.mpr hr
    constructor
    · intro hmode
      simp only [Compiler.splitLines]
      refine List.mem_map.mpr ⟨r, hmem, ?_⟩
      obtain ⟨t, m, v⟩ := r
      cases m with
      | fraction => rfl
      | max => exact absurd hmode (by simp)
      | remaining => exact absurd hmode (by simp)
    · intro hmode
      simp only [Compiler.splitLines]
      refine List.mem_map.mpr ⟨r, hmem, ?_⟩
      obtain ⟨t, m, v⟩ := r
      cases m with
      | fraction => exact absurd hmode (by simp)
      | max => rfl
      | remaining => exact absurd hmode (by simp)

/-- C2 witness: the amended theorem at the concrete mixed block
`mixedRules`. -/
theorem C2_witness :
    Compiler.splitWarnings mixedRules ≠ []
      ∧ ∀ r ∈ mixedRules,
        (r.amount_mode = AmountMode.fraction →
          percentLine r ∈ Compiler.splitLines mixedRules (str "USD/2"))
        ∧ (r.amount_mode = AmountMode.max →
          maxLine r (str "USD/2") ∈ Compiler.splitLines mixedRules (str "USD/2")) :=
  C2_mixed_modes_kept mixedRules (str "USD/2") (by decide)

/-- C2 counterexample: in the mixed block `[rMax, rFrac]` the fraction
rule is rendered in percentage form ("    10% to @b"), not in the
capped-allocation form the claim requires for every rule. -/
theorem C2_counterexample :
    Compiler.splitLines mixedRules (str "USD/2")
        = [str "    max [USD/2 1000] to @a", str "    10% to @b"]
      ∧ (str "    max ").isPrefixOf (str "    10% to @b") = false := by
  exact ⟨rfl, rfl⟩

/-- C7: a successfully compiled intent with N postings and M metadata
entries (fields free of newline characters) yields a script whose lines
starting a `send` statement are exactly the N posting headers in input
order, and whose `set_tx_meta` lines are exactly the M metadata
statements in input order. -/
theorem C7_statement_counts (intent : NumscriptIntent) (hpne : intent.postings ≠ [])
    (hc : cleanIntent intent = true) (out : Str)
    (h : Compiler.compileToNumscript intent = Except.ok out) :
    (linesOf out).filter isSendLine = intent.postings.map sendLine
      ∧ (linesOf out).filter isMetaLine = (metaListOf intent).map Compiler.metaLine := by
  rw [linesOf_compileToNumscript hc hpne h]
  simp only [List.cons_append]
  constructor
  · rw [List.filter_cons_of_neg (by simp [isSendLine_header]),
      List.filter_cons_of_neg (by simp [isSendLine_nil]),
      List.filter_cons_of_neg (by simp [isSendLine_nil]),
      List.filter_cons_of_neg (by simp [isSendLine_nil]),
      List.filter_append, filter_isSendLine_blockJoin]
    by_cases hm : 0 < (metaListOf intent).length
    · rw [if_pos hm, List.filter_cons_of_neg (by simp [isSendLine_nil]),
        List.filter_cons_of_neg (by simp [isSendLine_nil]),
        List.filter_cons_of_neg (by simp [isSendLine_nil]),
        filter_isSendLine_metaBlock]
      simp
    · rw [if_neg hm]
      simp
  · rw [List.filter_cons_of_neg (by simp [isMetaLine_header]),
      List.filter_cons_of_neg (by simp [isMetaLine_nil]),
      List.filter_cons_of_neg (by simp [isMetaLine_nil]),
      List.filter_cons_of_neg (by simp [isMetaLine_nil]),
      List.filter_append, filter_isMetaLine_blockJoin]
    by_cases hm : 0 < (metaListOf intent).length
    · rw [if_pos hm, List.filter_cons_of_neg (by simp [isMetaLine_nil]),
        List.filter_cons_of_neg (by simp [isMetaLine_nil]),
        List.filter_cons_of_neg (by simp [isMetaLine_nil]),
        filter_isMetaLine_metaBlock]
      simp
    · rw [if_neg hm]
      have hnil : metaListOf intent = [] :=
        List.length_eq_zero.mp (Nat.eq_zero_of_not_pos hm)
      rw [hnil]
      simp

/-- C7 witness: the two filter equations at the concrete intent `iFull`
(two postings, one metadata entry). -/
theorem C7_witness :
    (linesOf (okOr (Compiler.compileToNumscript iFull))).filter isSendLine
        = iFull.postings.map sendLine
      ∧ (linesOf (okOr (Compiler.compileToNumscript iFull))).filter isMetaLine
        = (metaListOf iFull).map Compiler.metaLine :=
  C7_statement_counts iFull (by decide) (by decide)
    (okOr (Compiler.compileToNumscript iFull)) rfl

/-- C8 (amended): in a successfully compiled script, adjacent send
statements are separated by exactly one blank line, as are adjacent
set_tx_meta statements (`blockJoin` inserts exactly one blank line
between consecutive blocks); but the summary header is followed by three
blank lines, and three blank lines — not one — separate the last send
statement from the first set_tx_meta statement. -/
theorem C8_blank_line_layout (intent : NumscriptIntent) (md : List MetadataEntry)
    (hmd : intent.metadata = Option.some md) (hne : md ≠ [])
    (hpne : intent.postings ≠ []) (hc : cleanIntent intent = true) (out : Str)
    (h : Compiler.compileToNumscript intent = Except.ok out) :
    linesOf out
      = (str "// " ++ intent.summary) :: [] :: [] :: [] ::
          blockJoin (intent.postings.map postingLines)
        ++ [] :: [] :: [] :: blockJoin (md.map fun m => [Compiler.metaLine m]) := by
  rw [linesOf_compileToNumscript hc hpne h]
  have hml : metaListOf intent = md := by simp [metaListOf, hmd]
  rw [hml, if_pos (List.length_pos.mpr hne)]

/-- C8 witness: the amended layout at the concrete intent `iFull`. -/
theorem C8_witness :
    linesOf (okOr (Compiler.compileToNumscript iFull))
      = (str "// " ++ iFull.summary) :: [] :: [] :: [] ::
          blockJoin (iFull.postings.map postingLines)
        ++ [] :: [] :: [] ::
          blockJoin ([({ key := str "type", value := str "refund" } : MetadataEntry)].map
            fun m => [Compiler.metaLine m]) :=
  C8_blank_line_layout iFull [{ key := str "type", value := str "refund" }] rfl (by decide)
    (by decide) (by decide) (okOr (Compiler.compileToNumscript iFull)) rfl

/-- C8 counterexample: the compiled script of `iFull` separates the last
send statement (its closing ")" is at index 15) from the first
set_tx_meta statement by three blank lines, not one, so consecutive
statements are not always separated by exactly one blank line. -/
theorem C8_counterexample :
    isOkB (Compiler.compileToNumscript iFull) = true
      ∧ linesOf (okOr (Compiler.compileToNumscript iFull))
        = [str "// Refund", [], [], [],
           str "send [USD/2 5] (", str "  source = @a", str "  destination = @b", str ")",
           [],
           str "send [EUR/2 100] (", str "  source = @c", str "  destination = \x7b",
           str "    80% to @d", str "    remaining to @e", str "  \x7d", str ")",
           [], [], [],
           str "set_tx_meta(\x22type\x22, \x22refund\x22)"] := by
  exact ⟨rfl, rfl⟩
